import Mathlib

/-!
Verification of the treefs tree-rendering package.

The development shallowly embeds the package's core: the `TreeFS` record, the
filter policy `allow`, the line builder `TreeFS.append`, the recursive walk
`treeFSWithPrefix` / `addDir` (the Go `for` loop over a directory listing is
expressed as the explicit tail recursion `walkEntries`, threading the loop
index `i` exactly as the source does), the option constructors, and the
constructors `New` / `NewMulti` together with the formatting methods
`Graph` / `Meta` / `render`.

The abstract filesystem an `fs.FS` provides is embedded as the finite tree
`FsTree`: a node is a plain file, a directory with an ordered listing of named
children, or a directory whose listing fails with a `ListError` (covering the
not-found / permission / I-O failures of the real collaborator).  `readNode`
plays the role of `fs.ReadDir` on one node.  Go's `path.Join` (join then
lexical clean) is embedded as `pathJoin` / `pathClean`.
-/

abbrev ListError := String

structure DirEntry where
  name : String
  isDir : Bool
deriving DecidableEq, Repr

inductive FsTree where
  | file : FsTree
  | errDir : ListError → FsTree
  | dir : List (String × FsTree) → FsTree
deriving Repr

def isDirNode : FsTree → Bool
  | .file => false
  | _ => true

/-- The fixed `ListError` produced when the walk asks for the listing of a
plain file (as `fs.ReadDir` fails on a non-directory). -/
def notADirectory : ListError := "not a directory"

/-- One `fs.ReadDir` step: the ordered child listing of a node, or the node's
listing error. -/
def readNode : FsTree → Except ListError (List (String × FsTree))
  | .file => .error notADirectory
  | .errDir e => .error e
  | .dir es => .ok es

def entryOf (p : String × FsTree) : DirEntry := ⟨p.1, isDirNode p.2⟩

def elbowConnector : String := "└──"
def teeConnector : String := "├──"
def pipePrefix : String := "│   "
def spacePrefix : String := "    "

structure TreeFS where
  tree : List String := []
  pathPrefix : String := ""
  NDirs : Nat := 0
  NFiles : Nat := 0
  hidden : Bool := false
  dirOnly : Bool := false
  fullPathPrefix : Bool := false
  level : Int := 0
deriving DecidableEq, Repr

/-- `strings.HasPrefix`, stated on the character lists so it evaluates. -/
def strHasPrefix (s pat : String) : Bool := decide (pat.toList <+: s.toList)

/-- The filter policy (`TreeFS.allow` in the source). -/
def allow (t : TreeFS) (entry : DirEntry) : Bool :=
  let isHidden := strHasPrefix entry.name "." && entry.name != "." && entry.name != "..."
  if isHidden && !t.hidden then false
  else if t.dirOnly && !entry.isDir then false
  else true

/-- Split a character list at every slash. -/
def splitSegs : List Char → List (List Char)
  | [] => [[]]
  | '/' :: rest => [] :: splitSegs rest
  | c :: rest =>
    match splitSegs rest with
    | [] => [[c]]
    | s :: r => (c :: s) :: r

/-- The segment processing of Go's lexical `path.Clean`: drop empty and `.`
segments, let an inner `..` cancel the preceding segment, keep leading `..`
segments of an unrooted path and drop them at the root of a rooted one. -/
def cleanSegs (rooted : Bool) (acc : List (List Char)) : List (List Char) → List (List Char)
  | [] => acc.reverse
  | seg :: rest =>
    if seg = [] ∨ seg = ['.'] then cleanSegs rooted acc rest
    else if seg = ['.', '.'] then
      match acc with
      | [] => if rooted then cleanSegs rooted [] rest else cleanSegs rooted [['.', '.']] rest
      | top :: accTail =>
        if top = ['.', '.'] then cleanSegs rooted (seg :: acc) rest
        else cleanSegs rooted accTail rest
    else cleanSegs rooted (seg :: acc) rest

def joinSegs : List (List Char) → List Char
  | [] => []
  | [s] => s
  | s :: rest => s ++ '/' :: joinSegs rest

/-- Go `path.Clean`. -/
def pathClean (s : String) : String :=
  let cs := s.toList
  let rooted := match cs with | '/' :: _ => true | _ => false
  let body := joinSegs (cleanSegs rooted [] (splitSegs cs))
  if rooted then (if body = [] then "/" else ⟨'/' :: body⟩)
  else (if body = [] then "." else ⟨body⟩)

/-- Go `path.Join` of two elements: non-empty elements joined with a slash and
cleaned; the empty string when both elements are empty. -/
def pathJoin (a b : String) : String :=
  if a = "" ∧ b = "" then ""
  else if a = "" then pathClean b
  else if b = "" then pathClean a
  else pathClean (a ++ "/" ++ b)

/-- `TreeFS.append` of the source: push one formatted line.  The displayed
name is the bare entry name, or with `fullPathPrefix` the walk path joined
with the entry name, behind the recorded `pathPrefix` when there is one. -/
def TreeFS.append (t : TreeFS) (pfx conn dirPath name : String) : TreeFS :=
  if !t.fullPathPrefix then
    { t with tree := t.tree ++ [pfx ++ conn ++ " " ++ name] }
  else if t.pathPrefix != "" then
    { t with tree := t.tree ++ [pfx ++ conn ++ " " ++ t.pathPrefix ++ "/" ++ pathJoin dirPath name] }
  else
    { t with tree := t.tree ++ [pfx ++ conn ++ " " ++ pathJoin dirPath name] }

structure AddDirArgs where
  path : String
  name : String
  idx : Nat
  numFiles : Nat
  lvl : Int
  pfx : String
  connector : String
deriving Repr

mutual

/-- The recursive walk `treeFSWithPrefix` of the source: stop silently when
the depth limit is enabled and reached, otherwise list the node and loop over
its entries. -/
def treeFSWithPrefix (t : TreeFS) (node : FsTree) (name pfx : String) (lvl : Int) :
    Except ListError TreeFS :=
  if t.level > 0 ∧ lvl = t.level then .ok t
  else
    match node with
    | .file => .error notADirectory
    | .errDir e => .error e
    | .dir es => walkEntries t es es.length 0 name pfx lvl
termination_by (sizeOf node, 0)

/-- The body of the source's `for i, entry := range entries` loop, as a tail
recursion over the remaining entries; `i` counts every entry of the raw
listing, filtered or not, and `numEntries` is the raw listing's length. -/
def walkEntries (t : TreeFS) (es : List (String × FsTree)) (numEntries i : Nat)
    (name pfx : String) (lvl : Int) : Except ListError TreeFS :=
  match es with
  | [] => .ok t
  | (entryName, sub) :: rest =>
    if !(allow t (entryOf (entryName, sub))) then
      walkEntries t rest numEntries (i + 1) name pfx lvl
    else
      let conn := if i = numEntries - 1 then elbowConnector else teeConnector
      if isDirNode sub then
        match addDir { t with NDirs := t.NDirs + 1 } sub
            { path := name, name := entryName, idx := i, numFiles := numEntries,
              lvl := lvl, pfx := pfx, connector := conn } with
        | .error e => .error e
        | .ok t2 => walkEntries t2 rest numEntries (i + 1) name pfx lvl
      else
        walkEntries (TreeFS.append { t with NFiles := t.NFiles + 1 } pfx conn name entryName)
          rest numEntries (i + 1) name pfx lvl
termination_by (sizeOf es, 2)

/-- `addDir` of the source: display the directory line, extend the child
continuation with the pipe segment when the directory's raw index is not the
last raw index and with the space segment otherwise, and recurse one level
deeper at the joined path. -/
def addDir (t : TreeFS) (sub : FsTree) (args : AddDirArgs) : Except ListError TreeFS :=
  let t2 := TreeFS.append t args.pfx args.connector args.path args.name
  let pfx2 := if args.idx ≠ args.numFiles - 1 then args.pfx ++ pipePrefix
              else args.pfx ++ spacePrefix
  treeFSWithPrefix t2 sub (pathJoin args.path args.name) pfx2 (args.lvl + 1)
termination_by (sizeOf sub, 1)

end

inductive Opt where
  | Hidden
  | DirOnly
  | FullPathPrefix
  | Level (lvl : Int)
deriving DecidableEq, Repr

/-- The four option constructors; `Level` ignores a non-positive depth. -/
def applyOpt (t : TreeFS) : Opt → TreeFS
  | .Hidden => { t with hidden := true }
  | .DirOnly => { t with dirOnly := true }
  | .FullPathPrefix => { t with fullPathPrefix := true }
  | .Level lvl => if lvl ≤ 0 then t else { t with level := lvl }

def applyOpts (t : TreeFS) (opts : List Opt) : TreeFS := opts.foldl applyOpt t

def initTreeFS (name : String) : TreeFS := { tree := [name] }

/-- `strings.Contains(name, "../")`. -/
def containsDotDotSlash (name : String) : Bool := decide ("../".toList <:+: name.toList)

/-- The state `New` walks from: the root line, the applied options, and the
recorded `pathPrefix` when the supplied name contains `../` or is `.`. -/
def newStart (name : String) (opts : List Opt) : TreeFS :=
  let t := applyOpts (initTreeFS name) opts
  if containsDotDotSlash name ∨ name = "." then { t with pathPrefix := name } else t

/-- The name `New` actually walks: `.` is substituted when the supplied name
contains `../` or is `.` itself. -/
def walkName (name : String) : String :=
  if containsDotDotSlash name ∨ name = "." then "." else name

/-- `New` of the source: build the start state and run the walk at depth 0. -/
def New (fsys : FsTree) (name : String) (opts : List Opt) : Except ListError TreeFS :=
  treeFSWithPrefix (newStart name opts) fsys (walkName name) "" 0

structure Arg where
  Fsys : FsTree
  Name : String
  Opts : List Opt

/-- The aggregation loop of `NewMulti`: render each tuple in order, abort on
the first error, concatenate the lines and sum the counts. -/
def newMultiAux (acc : TreeFS) : List Arg → Except ListError TreeFS
  | [] => .ok acc
  | a :: rest =>
    match New a.Fsys a.Name a.Opts with
    | .error e => .error e
    | .ok t2 =>
      newMultiAux { acc with tree := acc.tree ++ t2.tree, NDirs := acc.NDirs + t2.NDirs,
                             NFiles := acc.NFiles + t2.NFiles } rest

/-- `NewMulti` of the source, starting from the zero-valued `TreeFS`. -/
def NewMulti (args : List Arg) : Except ListError TreeFS := newMultiAux {} args

def TreeFS.Graph (t : TreeFS) : String := String.intercalate "\n" t.tree

/-- The `Meta` method: the summary line with pluralization, file clause
omitted under `dirOnly`. -/
def TreeFS.Meta (t : TreeFS) : String :=
  let dirs := if t.NDirs = 1 then "directory" else "directories"
  if t.dirOnly then toString t.NDirs ++ " " ++ dirs
  else
    let files := if t.NFiles = 1 then "file" else "files"
    toString t.NDirs ++ " " ++ dirs ++ ", " ++ toString t.NFiles ++ " " ++ files

/-- The `String` method: graph, blank line, summary. -/
def TreeFS.render (t : TreeFS) : String := t.Graph ++ "\n\n" ++ t.Meta

mutual

/-- Every node of a tree: the node itself and, below a directory, every node
of every child. -/
def subtreesList : FsTree → List FsTree
  | .file => [.file]
  | .errDir e => [.errDir e]
  | .dir es => .dir es :: subtreesOfList es
termination_by t => (sizeOf t, 0)

def subtreesOfList : List (String × FsTree) → List FsTree
  | [] => []
  | (_, sub) :: rest => subtreesList sub ++ subtreesOfList rest
termination_by es => (sizeOf es, 1)

end

/-- Exclusion predicate taken from the claim's words for comparison with the
source's `allow`: hidden means a dot-led name outside the fixed list
consisting of the one-dot, two-dot and three-dot markers. -/
def specExcludedC2 (includeHidden directoriesOnly : Bool) (e : DirEntry) : Bool :=
  (strHasPrefix e.name "." && !(e.name == "." || e.name == ".." || e.name == "...")
      && !includeHidden)
    || (directoriesOnly && !e.isDir)

def exC1 : FsTree :=
  FsTree.dir [("a", FsTree.dir [("b", FsTree.dir [])]), ("z.test", FsTree.file)]

def cfgEq (t t2 : TreeFS) : Prop :=
  t2.pathPrefix = t.pathPrefix ∧ t2.hidden = t.hidden ∧ t2.dirOnly = t.dirOnly ∧
  t2.fullPathPrefix = t.fullPathPrefix ∧ t2.level = t.level

def stepOk (t t2 : TreeFS) (off : Int) : Prop :=
  (∃ ds, t2.tree = t.tree ++ ds) ∧
  ((t2.NDirs : Int) + t2.NFiles + t.tree.length + off
      = (t.NDirs : Int) + t.NFiles + t2.tree.length) ∧
  cfgEq t t2 ∧ (t.dirOnly = true → t2.NFiles = t.NFiles)

theorem stepOk_refl (t : TreeFS) : stepOk t t 0 :=
  ⟨⟨[], by simp⟩, by omega, ⟨rfl, rfl, rfl, rfl, rfl⟩, fun _ => rfl⟩

theorem stepOk_trans {t a b : TreeFS} {o1 o2 : Int}
    (h1 : stepOk t a o1) (h2 : stepOk a b o2) : stepOk t b (o1 + o2) := by
  obtain ⟨⟨d1, hd1⟩, hl1, ⟨c11, c12, c13, c14, c15⟩, hf1⟩ := h1
  obtain ⟨⟨d2, hd2⟩, hl2, ⟨c21, c22, c23, c24, c25⟩, hf2⟩ := h2
  refine ⟨⟨d1 ++ d2, by rw [hd2, hd1, List.append_assoc]⟩, by omega,
    ⟨c21.trans c11, c22.trans c12, c23.trans c13, c24.trans c14, c25.trans c15⟩, ?_⟩
  intro hdo
  rw [hf2 (c13.trans hdo), hf1 hdo]

theorem stepOk_cast {t a : TreeFS} {o1 o2 : Int} (h : stepOk t a o1) (ho : o1 = o2) :
    stepOk t a o2 := ho ▸ h

theorem stepOk_append (t : TreeFS) (pfx conn dirPath name : String) :
    stepOk t (TreeFS.append t pfx conn dirPath name) 1 := by
  unfold TreeFS.append
  split
  · exact ⟨⟨_, rfl⟩, by simp; omega, ⟨rfl, rfl, rfl, rfl, rfl⟩, fun _ => rfl⟩
  · split
    · exact ⟨⟨_, rfl⟩, by simp; omega, ⟨rfl, rfl, rfl, rfl, rfl⟩, fun _ => rfl⟩
    · exact ⟨⟨_, rfl⟩, by simp; omega, ⟨rfl, rfl, rfl, rfl, rfl⟩, fun _ => rfl⟩

theorem stepOk_incDirs (t : TreeFS) :
    stepOk t { t with NDirs := t.NDirs + 1 } (-1) :=
  ⟨⟨[], by simp⟩, by simp; omega, ⟨rfl, rfl, rfl, rfl, rfl⟩, fun _ => rfl⟩

theorem stepOk_incFiles (t : TreeFS) (h : t.dirOnly = false) :
    stepOk t { t with NFiles := t.NFiles + 1 } (-1) :=
  ⟨⟨[], by simp⟩, by simp; omega, ⟨rfl, rfl, rfl, rfl, rfl⟩, fun hdo => by rw [h] at hdo; cases hdo⟩

theorem allow_file_not_dirOnly {t : TreeFS} {e : DirEntry}
    (h : allow t e = true) (hf : e.isDir = false) : t.dirOnly = false := by
  cases hdo : t.dirOnly with
  | false => rfl
  | true =>
    exfalso
    unfold allow at h
    rw [hdo, hf] at h
    simp at h

theorem treeFSWithPrefix_stop (t : TreeFS) (node : FsTree) (name pfx : String) (lvl : Int)
    (h : t.level > 0 ∧ lvl = t.level) :
    treeFSWithPrefix t node name pfx lvl = .ok t := by
  rw [treeFSWithPrefix.eq_def, if_pos h]

theorem treeFSWithPrefix_go (t : TreeFS) (node : FsTree) (name pfx : String) (lvl : Int)
    (h : ¬(t.level > 0 ∧ lvl = t.level)) :
    treeFSWithPrefix t node name pfx lvl =
      match node with
      | .file => .error notADirectory
      | .errDir e => .error e
      | .dir es => walkEntries t es es.length 0 name pfx lvl := by
  rw [treeFSWithPrefix.eq_def, if_neg h]

theorem walkEntries_nil (t : TreeFS) (numEntries i : Nat) (name pfx : String) (lvl : Int) :
    walkEntries t [] numEntries i name pfx lvl = .ok t := by
  rw [walkEntries.eq_def]

theorem walkEntries_cons_skip (t : TreeFS) (entryName : String) (sub : FsTree)
    (rest : List (String × FsTree)) (numEntries i : Nat) (name pfx : String) (lvl : Int)
    (h : allow t (entryOf (entryName, sub)) = false) :
    walkEntries t ((entryName, sub) :: rest) numEntries i name pfx lvl =
      walkEntries t rest numEntries (i + 1) name pfx lvl := by
  rw [walkEntries.eq_def]
  simp [h]

theorem walkEntries_cons_dir (t : TreeFS) (entryName : String) (sub : FsTree)
    (rest : List (String × FsTree)) (numEntries i : Nat) (name pfx : String) (lvl : Int)
    (h : allow t (entryOf (entryName, sub)) = true) (hd : isDirNode sub = true) :
    walkEntries t ((entryName, sub) :: rest) numEntries i name pfx lvl =
      match addDir { t with NDirs := t.NDirs + 1 } sub
          { path := name, name := entryName, idx := i, numFiles := numEntries,
            lvl := lvl, pfx := pfx,
            connector := if i = numEntries - 1 then elbowConnector else teeConnector } with
      | .error e => .error e
      | .ok t2 => walkEntries t2 rest numEntries (i + 1) name pfx lvl := by
  rw [walkEntries.eq_def]
  simp [h, hd]

theorem walkEntries_cons_file (t : TreeFS) (entryName : String) (sub : FsTree)
    (rest : List (String × FsTree)) (numEntries i : Nat) (name pfx : String) (lvl : Int)
    (h : allow t (entryOf (entryName, sub)) = true) (hd : isDirNode sub = false) :
    walkEntries t ((entryName, sub) :: rest) numEntries i name pfx lvl =
      walkEntries (TreeFS.append { t with NFiles := t.NFiles + 1 } pfx
          (if i = numEntries - 1 then elbowConnector else teeConnector) name entryName)
        rest numEntries (i + 1) name pfx lvl := by
  rw [walkEntries.eq_def]
  simp [h, hd]

theorem addDir_eq (t : TreeFS) (sub : FsTree) (args : AddDirArgs) :
    addDir t sub args =
      treeFSWithPrefix (TreeFS.append t args.pfx args.connector args.path args.name) sub
        (pathJoin args.path args.name)
        (args.pfx ++ if args.idx ≠ args.numFiles - 1 then pipePrefix else spacePrefix)
        (args.lvl + 1) := by
  simp only [addDir]
  by_cases hsplit : args.idx ≠ args.numFiles - 1
  · rw [if_pos hsplit, if_pos hsplit]
  · rw [if_neg hsplit, if_neg hsplit]

theorem walk_master :
    (∀ t node name pfx lvl,
      (∀ t2, treeFSWithPrefix t node name pfx lvl = .ok t2 → stepOk t t2 0) ∧
      (∀ e, treeFSWithPrefix t node name pfx lvl = .error e →
         ∃ nd ∈ subtreesList node, readNode nd = .error e)) ∧
    (∀ t es numEntries i name pfx lvl,
      (∀ t2, walkEntries t es numEntries i name pfx lvl = .ok t2 → stepOk t t2 0) ∧
      (∀ e, walkEntries t es numEntries i name pfx lvl = .error e →
         ∃ nd ∈ subtreesOfList es, readNode nd = .error e)) ∧
    (∀ t sub args,
      (∀ t2, addDir t sub args = .ok t2 → stepOk t t2 1) ∧
      (∀ e, addDir t sub args = .error e →
         ∃ nd ∈ subtreesList sub, readNode nd = .error e)) := by
  apply treeFSWithPrefix.mutual_induct
  · -- depth guard reached: the walk returns its state unchanged
    intro t node name pfx lvl h
    constructor
    · intro t2 heq
      rw [treeFSWithPrefix_stop t node name pfx lvl h] at heq
      cases heq
      exact stepOk_refl t
    · intro e heq
      rw [treeFSWithPrefix_stop t node name pfx lvl h] at heq
      cases heq
  · -- listing a plain file fails
    intro t name pfx lvl h
    constructor
    · intro t2 heq
      rw [treeFSWithPrefix_go t .file name pfx lvl h] at heq
      cases heq
    · intro e heq
      rw [treeFSWithPrefix_go t .file name pfx lvl h] at heq
      cases heq
      exact ⟨.file, by rw [subtreesList]; exact List.mem_singleton.mpr rfl, rfl⟩
  · -- listing an errDir fails with the stored error
    intro t name pfx lvl h a
    constructor
    · intro t2 heq
      rw [treeFSWithPrefix_go t (.errDir a) name pfx lvl h] at heq
      cases heq
    · intro e heq
      rw [treeFSWithPrefix_go t (.errDir a) name pfx lvl h] at heq
      cases heq
      exact ⟨.errDir a, by rw [subtreesList]; exact List.mem_singleton.mpr rfl, rfl⟩
  · -- a directory: defer to the loop
    intro t name pfx lvl h a ih
    constructor
    · intro t2 heq
      rw [treeFSWithPrefix_go t (.dir a) name pfx lvl h] at heq
      exact ih.1 t2 heq
    · intro e heq
      rw [treeFSWithPrefix_go t (.dir a) name pfx lvl h] at heq
      obtain ⟨nd, hmem, hrd⟩ := ih.2 e heq
      exact ⟨nd, by rw [subtreesList]; exact List.mem_cons_of_mem _ hmem, hrd⟩
  · -- loop over an empty listing
    intro t numEntries i name pfx lvl
    constructor
    · intro t2 heq
      rw [walkEntries_nil] at heq
      cases heq
      exact stepOk_refl t
    · intro e heq
      rw [walkEntries_nil] at heq
      cases heq
  · -- a filtered-out entry is skipped entirely
    intro t numEntries i name pfx lvl entryName sub rest hskip ih
    have hallow : allow t (entryOf (entryName, sub)) = false := by simpa using hskip
    constructor
    · intro t2 heq
      rw [walkEntries_cons_skip t entryName sub rest numEntries i name pfx lvl hallow] at heq
      exact ih.1 t2 heq
    · intro e heq
      rw [walkEntries_cons_skip t entryName sub rest numEntries i name pfx lvl hallow] at heq
      obtain ⟨nd, hmem, hrd⟩ := ih.2 e heq
      exact ⟨nd, by rw [subtreesOfList]; exact List.mem_append_right _ hmem, hrd⟩
  · -- an allowed directory entry whose recursive walk fails
    intro t numEntries i name pfx lvl entryName sub rest hallow' conn hd e herr ihD
    have hallow : allow t (entryOf (entryName, sub)) = true := by simpa using hallow'
    have hconn : conn = if i = numEntries - 1 then elbowConnector else teeConnector := rfl
    have herr2 := herr
    rw [hconn] at herr2
    constructor
    · intro t2 heq
      rw [walkEntries_cons_dir t entryName sub rest numEntries i name pfx lvl hallow hd,
          herr2] at heq
      simp at heq
    · intro e2 heq
      rw [walkEntries_cons_dir t entryName sub rest numEntries i name pfx lvl hallow hd,
          herr2] at heq
      simp at heq
      obtain ⟨nd, hmem, hrd⟩ := ihD.2 e herr
      refine ⟨nd, by rw [subtreesOfList]; exact List.mem_append_left _ hmem, ?_⟩
      rw [hrd, heq]
  · -- an allowed directory entry whose recursive walk succeeds
    intro t numEntries i name pfx lvl entryName sub rest hallow' conn hd tmid hok ihD ihW
    have hallow : allow t (entryOf (entryName, sub)) = true := by simpa using hallow'
    have hconn : conn = if i = numEntries - 1 then elbowConnector else teeConnector := rfl
    have hok2 := hok
    rw [hconn] at hok2
    constructor
    · intro t2 heq
      rw [walkEntries_cons_dir t entryName sub rest numEntries i name pfx lvl hallow hd,
          hok2] at heq
      simp only [] at heq
      have s1 := stepOk_incDirs t
      have s2 := ihD.1 tmid hok
      have s3 := ihW.1 t2 heq
      exact stepOk_cast (stepOk_trans (stepOk_trans s1 s2) s3) (by norm_num)
    · intro e heq
      rw [walkEntries_cons_dir t entryName sub rest numEntries i name pfx lvl hallow hd,
          hok2] at heq
      simp only [] at heq
      obtain ⟨nd, hmem, hrd⟩ := ihW.2 e heq
      exact ⟨nd, by rw [subtreesOfList]; exact List.mem_append_right _ hmem, hrd⟩
  · -- an allowed file entry: one line, one file count
    intro t numEntries i name pfx lvl entryName sub rest hallow' conn hd ihW
    have hallow : allow t (entryOf (entryName, sub)) = true := by simpa using hallow'
    have hconn : conn = if i = numEntries - 1 then elbowConnector else teeConnector := rfl
    have hdf : isDirNode sub = false := by simpa using hd
    have hdo : t.dirOnly = false := allow_file_not_dirOnly hallow hdf
    rw [hconn] at ihW
    constructor
    · intro t2 heq
      rw [walkEntries_cons_file t entryName sub rest numEntries i name pfx lvl hallow hdf] at heq
      have s1 := stepOk_incFiles t hdo
      have s2 := stepOk_append { t with NFiles := t.NFiles + 1 } pfx
        (if i = numEntries - 1 then elbowConnector else teeConnector) name entryName
      have s3 := ihW.1 t2 heq
      exact stepOk_cast (stepOk_trans (stepOk_trans s1 s2) s3) (by norm_num)
    · intro e heq
      rw [walkEntries_cons_file t entryName sub rest numEntries i name pfx lvl hallow hdf] at heq
      obtain ⟨nd, hmem, hrd⟩ := ihW.2 e heq
      exact ⟨nd, by rw [subtreesOfList]; exact List.mem_append_right _ hmem, hrd⟩
  · -- addDir: display the directory line, then recurse
    intro t sub args t2 pfx2 ihA
    constructor
    · intro tf heq
      rw [addDir.eq_def] at heq
      have s1 : stepOk t t2 1 :=
        stepOk_append t args.pfx args.connector args.path args.name
      have s2 := ihA.1 tf heq
      exact stepOk_cast (stepOk_trans s1 s2) (by norm_num)
    · intro e heq
      rw [addDir.eq_def] at heq
      exact ihA.2 e heq

theorem applyOpt_preserves (t : TreeFS) (o : Opt) :
    (applyOpt t o).tree = t.tree ∧ (applyOpt t o).pathPrefix = t.pathPrefix ∧
    (applyOpt t o).NDirs = t.NDirs ∧ (applyOpt t o).NFiles = t.NFiles := by
  cases o <;> simp [applyOpt]
  split <;> simp

theorem applyOpts_preserves (opts : List Opt) : ∀ t : TreeFS,
    (applyOpts t opts).tree = t.tree ∧ (applyOpts t opts).pathPrefix = t.pathPrefix ∧
    (applyOpts t opts).NDirs = t.NDirs ∧ (applyOpts t opts).NFiles = t.NFiles := by
  induction opts with
  | nil => intro t; exact ⟨rfl, rfl, rfl, rfl⟩
  | cons o rest ih =>
    intro t
    obtain ⟨h1, h2, h3, h4⟩ := ih (applyOpt t o)
    obtain ⟨g1, g2, g3, g4⟩ := applyOpt_preserves t o
    exact ⟨h1.trans g1, h2.trans g2, h3.trans g3, h4.trans g4⟩

theorem newStart_tree (name : String) (opts : List Opt) :
    (newStart name opts).tree = [name] := by
  unfold newStart
  split
  · exact (applyOpts_preserves opts (initTreeFS name)).1
  · exact (applyOpts_preserves opts (initTreeFS name)).1

theorem newStart_counts (name : String) (opts : List Opt) :
    (newStart name opts).NDirs = 0 ∧ (newStart name opts).NFiles = 0 := by
  unfold newStart
  split
  · exact ⟨(applyOpts_preserves opts (initTreeFS name)).2.2.1,
           (applyOpts_preserves opts (initTreeFS name)).2.2.2⟩
  · exact ⟨(applyOpts_preserves opts (initTreeFS name)).2.2.1,
           (applyOpts_preserves opts (initTreeFS name)).2.2.2⟩

theorem applyOpt_dirOnly_mono (t : TreeFS) (o : Opt) (h : t.dirOnly = true) :
    (applyOpt t o).dirOnly = true := by
  cases o <;> simp [applyOpt, h]
  split <;> simp [h]

theorem applyOpts_dirOnly (opts : List Opt) : ∀ t : TreeFS,
    Opt.DirOnly ∈ opts ∨ t.dirOnly = true → (applyOpts t opts).dirOnly = true := by
  induction opts with
  | nil =>
    intro t h
    rcases h with h | h
    · cases h
    · exact h
  | cons o rest ih =>
    intro t h
    rcases h with h | h
    · rcases List.mem_cons.mp h with h | h
      · subst h
        exact ih _ (Or.inr rfl)
      · exact ih _ (Or.inl h)
    · refine ih _ (Or.inr ?_)
      exact applyOpt_dirOnly_mono t o h

theorem newStart_dirOnly (name : String) (opts : List Opt) (h : Opt.DirOnly ∈ opts) :
    (newStart name opts).dirOnly = true := by
  unfold newStart
  split
  · exact applyOpts_dirOnly opts (initTreeFS name) (Or.inl h)
  · exact applyOpts_dirOnly opts (initTreeFS name) (Or.inl h)

theorem New_eq (fsys : FsTree) (name : String) (opts : List Opt) :
    New fsys name opts = treeFSWithPrefix (newStart name opts) fsys (walkName name) "" 0 := rfl

theorem guard_at_zero (t : TreeFS) : ¬(t.level > 0 ∧ (0 : Int) = t.level) := by
  rintro ⟨h1, h2⟩
  omega

theorem New_ok_stepOk {fsys : FsTree} {name : String} {opts : List Opt} {t : TreeFS}
    (h : New fsys name opts = .ok t) : stepOk (newStart name opts) t 0 :=
  (walk_master.1 (newStart name opts) fsys (walkName name) "" 0).1 t h

theorem walkEntries_all_skip (es : List (String × FsTree)) :
    ∀ (t : TreeFS) (numEntries i : Nat) (name pfx : String) (lvl : Int),
    (∀ p ∈ es, allow t (entryOf p) = false) →
    walkEntries t es numEntries i name pfx lvl = .ok t := by
  induction es with
  | nil =>
    intro t numEntries i name pfx lvl _
    exact walkEntries_nil t numEntries i name pfx lvl
  | cons p rest ih =>
    intro t numEntries i name pfx lvl hall
    obtain ⟨pn, psub⟩ := p
    rw [walkEntries_cons_skip t pn psub rest numEntries i name pfx lvl (hall _ (by simp))]
    exact ih t numEntries (i + 1) name pfx lvl (fun q hq => hall q (by simp [hq]))

theorem New_all_filtered {fsys : FsTree} {name : String} {opts : List Opt}
    {es : List (String × FsTree)} (hread : readNode fsys = .ok es)
    (hall : ∀ p ∈ es, allow (newStart name opts) (entryOf p) = false) :
    New fsys name opts = .ok (newStart name opts) := by
  cases fsys with
  | file => simp [readNode] at hread
  | errDir e => simp [readNode] at hread
  | dir es2 =>
    have hes : es2 = es := by simpa [readNode] using hread
    subst hes
    rw [New_eq, treeFSWithPrefix_go _ _ _ _ _ (guard_at_zero _)]
    exact walkEntries_all_skip es2 _ _ _ _ _ _ hall

theorem newMultiAux_ok {args : List Arg} {ts : List TreeFS}
    (h : List.Forall₂ (fun a t => New a.Fsys a.Name a.Opts = .ok t) args ts) :
    ∀ acc, newMultiAux acc args =
      .ok { acc with
            tree := acc.tree ++ (ts.map TreeFS.tree).flatten,
            NDirs := acc.NDirs + (ts.map TreeFS.NDirs).sum,
            NFiles := acc.NFiles + (ts.map TreeFS.NFiles).sum } := by
  induction h with
  | nil =>
    intro acc
    cases acc
    simp [newMultiAux]
  | cons ha hrest ih =>
    intro acc
    rename_i a as t ts2
    rw [newMultiAux, ha]
    simp [ih, List.append_assoc, Nat.add_assoc]

theorem allow_false_iff (t : TreeFS) (e : DirEntry) :
    allow t e = false ↔
      ((strHasPrefix e.name "." = true ∧ e.name ≠ "." ∧ e.name ≠ "..." ∧ t.hidden = false) ∨
       (t.dirOnly = true ∧ e.isDir = false)) := by
  cases hsp : strHasPrefix e.name "." <;> cases hh : t.hidden <;> cases hdo : t.dirOnly <;>
    cases hin : e.isDir <;> by_cases h1 : e.name = "." <;> by_cases h2 : e.name = "..." <;>
    simp [allow, hsp, hh, hdo, hin, h1, h2]

theorem append_level (t : TreeFS) (pfx conn dirPath n : String) :
    (TreeFS.append t pfx conn dirPath n).level = t.level :=
  (stepOk_append t pfx conn dirPath n).2.2.1.2.2.2.2

theorem newMultiAux_err (pre : List Arg) :
    ∀ (acc : TreeFS) (a : Arg) (post : List Arg) (e : ListError),
    (∀ b ∈ pre, ∃ t, New b.Fsys b.Name b.Opts = .ok t) →
    New a.Fsys a.Name a.Opts = .error e →
    newMultiAux acc (pre ++ a :: post) = .error e := by
  induction pre with
  | nil =>
    intro acc a post e _ herr
    rw [List.nil_append, newMultiAux, herr]
  | cons b rest ih =>
    intro acc a post e hok herr
    obtain ⟨tb, htb⟩ := hok b (by simp)
    rw [List.cons_append, newMultiAux, htb]
    exact ih _ a post e (fun c hc => hok c (by simp [hc])) herr

/-- C1: evaluation of the code at the failing input for the connector claim.  With
`directoriesOnly` set on a root whose raw listing is the directory `a` (containing `b`)
followed by the file `z.test`, the file is filtered out, so `a` is the last surviving
entry of its level; the claim then requires the elbow connector for `a` and the
space-segment continuation for its child, but the code selects connectors by the raw
listing index and renders the tee connector for `a` and the pipe continuation for `b`. -/
theorem c1_connector_uses_raw_index :
    New exC1 "root" [Opt.DirOnly] =
      .ok { tree := ["root", teeConnector ++ " a", pipePrefix ++ elbowConnector ++ " b"],
            NDirs := 2, dirOnly := true } ∧
    teeConnector ≠ elbowConnector ∧ pipePrefix ≠ spacePrefix := by
  refine ⟨?_, by decide, by decide⟩
  simp +decide [exC1, New, newStart, walkName, applyOpts, applyOpt, initTreeFS,
    containsDotDotSlash, treeFSWithPrefix, walkEntries, addDir, allow, strHasPrefix,
    entryOf, isDirNode, TreeFS.append, pathJoin, pathClean, splitSegs, cleanSegs, joinSegs,
    elbowConnector, teeConnector, pipePrefix, spacePrefix]

/-- C2 counterexample: the two-dot parent marker.  The source's `allow` excludes an
entry named `..` (dot-led, not `.` and not `...`, hidden filtering active), while the
claim's exclusion condition, stated with the fixed list containing the one-, two- and
three-dot markers, does not exclude it; a render of a listing holding a `..` directory
indeed displays and counts nothing. -/
theorem c2_counterexample_dotdot :
    allow {} { name := "..", isDir := true } = false ∧
    specExcludedC2 false false { name := "..", isDir := true } = false ∧
    New (FsTree.dir [("..", FsTree.dir [])]) "r" [] = .ok { tree := ["r"] } := by
  refine ⟨by decide, by decide, ?_⟩
  simp +decide [New, newStart, walkName, applyOpts, applyOpt, initTreeFS,
    containsDotDotSlash, treeFSWithPrefix, walkEntries, addDir, allow, strHasPrefix,
    entryOf, isDirNode, TreeFS.append, pathJoin, pathClean, splitSegs, cleanSegs, joinSegs,
    elbowConnector, teeConnector, pipePrefix, spacePrefix]

/-- C2 (amended): an entry is excluded from display, counting and descent exactly when
(a) its name starts with a dot, differs from `.` and from `...` (the two-dot marker is
not in the source's exception list), and `includeHidden` is false, or (b)
`directoriesOnly` is set and the entry is not a directory; a loop step on an excluded
entry changes nothing but the raw index. -/
theorem c2_filter_policy_amended :
    (∀ (t : TreeFS) (e : DirEntry),
       allow t e = false ↔
         ((strHasPrefix e.name "." = true ∧ e.name ≠ "." ∧ e.name ≠ "..." ∧ t.hidden = false) ∨
          (t.dirOnly = true ∧ e.isDir = false))) ∧
    (∀ (t : TreeFS) (p : String × FsTree) (rest : List (String × FsTree))
       (numEntries i : Nat) (name pfx : String) (lvl : Int),
       allow t (entryOf p) = false →
       walkEntries t (p :: rest) numEntries i name pfx lvl =
         walkEntries t rest numEntries (i + 1) name pfx lvl) := by
  constructor
  · exact allow_false_iff
  · intro t p rest numEntries i name pfx lvl h
    obtain ⟨pn, psub⟩ := p
    exact walkEntries_cons_skip t pn psub rest numEntries i name pfx lvl h

/-- Witness for C2 at the hidden entry `.git`. -/
theorem c2_filter_policy_witness :
    (allow {} { name := ".git", isDir := true } = false ↔
       ((strHasPrefix ".git" "." = true ∧ (".git" : String) ≠ "." ∧ (".git" : String) ≠ "..." ∧
          ({} : TreeFS).hidden = false) ∨
        (({} : TreeFS).dirOnly = true ∧ true = false))) ∧
    walkEntries {} [(".git", FsTree.dir [])] 1 0 "r" "" 0 =
      walkEntries {} [] 1 1 "r" "" 0 := by
  constructor
  · simpa using c2_filter_policy_amended.1 {} { name := ".git", isDir := true }
  · exact c2_filter_policy_amended.2 {} (".git", FsTree.dir []) [] 1 0 "r" "" 0 (by decide)

/-- C3: with the depth limit enabled, the walk returns as soon as the running level
reaches it, before any listing (even a failing one); with the stored limit non-positive
the guard never fires at any level and the walk always proceeds to the listing; a
non-positive `Level` option is ignored outright; and a directory entry sitting at the
boundary is still displayed and counted while none of its contents appear. -/
theorem c3_depth_limit :
    (∀ (t : TreeFS) (node : FsTree) (name pfx : String),
       t.level > 0 → treeFSWithPrefix t node name pfx t.level = .ok t) ∧
    (∀ (t : TreeFS) (node : FsTree) (name pfx : String) (lvl : Int),
       t.level ≤ 0 →
       treeFSWithPrefix t node name pfx lvl =
         match node with
         | .file => .error notADirectory
         | .errDir e => .error e
         | .dir es => walkEntries t es es.length 0 name pfx lvl) ∧
    (∀ lvl : Int, lvl ≤ 0 → ∀ t : TreeFS, applyOpt t (Opt.Level lvl) = t) ∧
    (∀ (t : TreeFS) (entryName : String) (sub : FsTree) (rest : List (String × FsTree))
       (numEntries i : Nat) (name pfx : String) (lvl : Int),
       t.level > 0 → lvl + 1 = t.level →
       allow t (entryOf (entryName, sub)) = true → isDirNode sub = true →
       walkEntries t ((entryName, sub) :: rest) numEntries i name pfx lvl =
         walkEntries (TreeFS.append { t with NDirs := t.NDirs + 1 } pfx
             (if i = numEntries - 1 then elbowConnector else teeConnector) name entryName)
           rest numEntries (i + 1) name pfx lvl) := by
  refine ⟨?_, ?_, ?_, ?_⟩
  · intro t node name pfx h
    exact treeFSWithPrefix_stop t node name pfx t.level ⟨h, rfl⟩
  · intro t node name pfx lvl h
    refine treeFSWithPrefix_go t node name pfx lvl ?_
    rintro ⟨h1, h2⟩
    omega
  · intro lvl h t
    simp [applyOpt, h]
  · intro t entryName sub rest numEntries i name pfx lvl hpos hnext hallow hd
    rw [walkEntries_cons_dir t entryName sub rest numEntries i name pfx lvl hallow hd]
    have haddok : addDir { t with NDirs := t.NDirs + 1 } sub
        { path := name, name := entryName, idx := i, numFiles := numEntries,
          lvl := lvl, pfx := pfx,
          connector := if i = numEntries - 1 then elbowConnector else teeConnector } =
        .ok (TreeFS.append { t with NDirs := t.NDirs + 1 } pfx
          (if i = numEntries - 1 then elbowConnector else teeConnector) name entryName) := by
      rw [addDir_eq]
      refine treeFSWithPrefix_stop _ sub _ _ _ ?_
      constructor
      · show 0 < (TreeFS.append { t with NDirs := t.NDirs + 1 } pfx
          (if i = numEntries - 1 then elbowConnector else teeConnector) name entryName).level
        rw [append_level]
        exact hpos
      · show lvl + 1 = (TreeFS.append { t with NDirs := t.NDirs + 1 } pfx
          (if i = numEntries - 1 then elbowConnector else teeConnector) name entryName).level
        rw [append_level]
        exact hnext
    rw [haddok]

/-- Witness for C3 at concrete states and levels. -/
theorem c3_depth_limit_witness :
    treeFSWithPrefix { tree := ["r"], level := 2 } (FsTree.dir [("x", FsTree.file)])
        "r" "" 2 = .ok { tree := ["r"], level := 2 } ∧
    treeFSWithPrefix { tree := ["r"] } (FsTree.dir [("x", FsTree.file)]) "r" "" 5 =
      walkEntries { tree := ["r"] } [("x", FsTree.file)] 1 0 "r" "" 5 ∧
    applyOpt {} (Opt.Level (-3)) = {} ∧
    walkEntries { tree := ["r"], level := 1 } [("a", FsTree.dir [("b", FsTree.file)])]
        1 0 "r" "" 0 =
      walkEntries (TreeFS.append { tree := ["r"], level := 1, NDirs := 1 } ""
          elbowConnector "r" "a") [] 1 1 "r" "" 0 := by
  refine ⟨?_, ?_, ?_, ?_⟩
  · exact c3_depth_limit.1 { tree := ["r"], level := 2 } (FsTree.dir [("x", FsTree.file)])
      "r" "" (by decide)
  · exact c3_depth_limit.2.1 { tree := ["r"] } (FsTree.dir [("x", FsTree.file)]) "r" "" 5
      (by decide)
  · exact c3_depth_limit.2.2.1 (-3) (by decide) {}
  · exact c3_depth_limit.2.2.2 { tree := ["r"], level := 1 } "a" (FsTree.dir [("b", FsTree.file)])
      [] 1 0 "r" "" 0 (by decide) (by decide) (by decide) (by decide)

/-- C4: a failing root listing makes the render fail with that very error; every render
error is the unchanged error of some node of the walked tree (and an `Except` result is
either a full report or an error, never a partial one); and in the aggregator the first
failing render aborts the whole batch with that error. -/
theorem c4_error_propagation :
    (∀ (fsys : FsTree) (name : String) (opts : List Opt) (e : ListError),
       readNode fsys = .error e → New fsys name opts = .error e) ∧
    (∀ (fsys : FsTree) (name : String) (opts : List Opt) (e : ListError),
       New fsys name opts = .error e →
       ∃ nd ∈ subtreesList fsys, readNode nd = .error e) ∧
    (∀ (pre : List Arg) (a : Arg) (post : List Arg) (e : ListError),
       (∀ b ∈ pre, ∃ t, New b.Fsys b.Name b.Opts = .ok t) →
       New a.Fsys a.Name a.Opts = .error e →
       NewMulti (pre ++ a :: post) = .error e) := by
  refine ⟨?_, ?_, ?_⟩
  · intro fsys name opts e hread
    rw [New_eq, treeFSWithPrefix_go _ _ _ _ _ (guard_at_zero _)]
    cases fsys with
    | file => simpa [readNode] using hread
    | errDir e2 => simpa [readNode] using hread
    | dir es => simp [readNode] at hread
  · intro fsys name opts e h
    exact (walk_master.1 (newStart name opts) fsys (walkName name) "" 0).2 e h
  · intro pre a post e hok herr
    exact newMultiAux_err pre {} a post e hok herr

/-- Witness for C4: a failing root and a failing second tuple of a batch. -/
theorem c4_error_propagation_witness :
    New (FsTree.errDir "boom") "r" [] = .error "boom" ∧
    (∃ nd ∈ subtreesList (FsTree.errDir "boom"), readNode nd = .error "boom") ∧
    NewMulti [⟨FsTree.dir [], "r", []⟩, ⟨FsTree.errDir "x", "s", []⟩] = .error "x" := by
  have h1 : New (FsTree.errDir "boom") "r" [] = .error "boom" :=
    c4_error_propagation.1 (FsTree.errDir "boom") "r" [] "boom" rfl
  refine ⟨h1, c4_error_propagation.2.1 (FsTree.errDir "boom") "r" [] "boom" h1, ?_⟩
  refine c4_error_propagation.2.2 [⟨FsTree.dir [], "r", []⟩] ⟨FsTree.errDir "x", "s", []⟩
    [] "x" ?_ (c4_error_propagation.1 (FsTree.errDir "x") "s" [] "x" rfl)
  intro b hb
  simp at hb
  subst hb
  refine ⟨newStart "r" [], ?_⟩
  rw [New_eq, treeFSWithPrefix_go _ _ _ _ _ (guard_at_zero _)]
  exact walkEntries_nil _ _ _ _ _ _

/-- C5: when every individual render succeeds, the aggregate's lines are the
concatenation, in input order, of the individual lines, and its counts are the sums of
the individual counts. -/
theorem c5_aggregate_concat_sum (args : List Arg) (ts : List TreeFS)
    (h : List.Forall₂ (fun a t => New a.Fsys a.Name a.Opts = .ok t) args ts) :
    NewMulti args =
      .ok { tree := (ts.map TreeFS.tree).flatten,
            NDirs := (ts.map TreeFS.NDirs).sum,
            NFiles := (ts.map TreeFS.NFiles).sum } := by
  have := newMultiAux_ok h ({} : TreeFS)
  simpa using this

/-- Witness for C5: aggregating two independent single-entry trees. -/
theorem c5_aggregate_witness :
    NewMulti [⟨FsTree.dir [("x.test", FsTree.file)], "r1", []⟩,
              ⟨FsTree.dir [("y", FsTree.dir [])], "r2", []⟩] =
      .ok { tree := ["r1", elbowConnector ++ " x.test", "r2", elbowConnector ++ " y"],
            NDirs := 1, NFiles := 1 } := by
  refine c5_aggregate_concat_sum _
    [{ tree := ["r1", elbowConnector ++ " x.test"], NFiles := 1 },
     { tree := ["r2", elbowConnector ++ " y"], NDirs := 1 }]
    (List.Forall₂.cons ?_ (List.Forall₂.cons ?_ List.Forall₂.nil))
  · simp +decide [New, newStart, walkName, applyOpts, applyOpt, initTreeFS,
      containsDotDotSlash, treeFSWithPrefix, walkEntries, addDir, allow, strHasPrefix,
      entryOf, isDirNode, TreeFS.append, pathJoin, pathClean, splitSegs, cleanSegs, joinSegs,
      elbowConnector, teeConnector, pipePrefix, spacePrefix]
  · simp +decide [New, newStart, walkName, applyOpts, applyOpt, initTreeFS,
      containsDotDotSlash, treeFSWithPrefix, walkEntries, addDir, allow, strHasPrefix,
      entryOf, isDirNode, TreeFS.append, pathJoin, pathClean, splitSegs, cleanSegs, joinSegs,
      elbowConnector, teeConnector, pipePrefix, spacePrefix]

/-- C6: the full report is the graph, one blank line, then the summary; the summary
line pluralizes `directory`/`file` exactly on a count of one and omits the file clause
entirely under `directoriesOnly`; and a render with the `DirOnly` option always has a
zero file count. -/
theorem c6_summary_format :
    (∀ t : TreeFS, TreeFS.render t = TreeFS.Graph t ++ "\n\n" ++ TreeFS.Meta t) ∧
    (∀ t : TreeFS, t.dirOnly = true →
       TreeFS.Meta t = toString t.NDirs ++ " " ++
         (if t.NDirs = 1 then "directory" else "directories")) ∧
    (∀ t : TreeFS, t.dirOnly = false →
       TreeFS.Meta t = toString t.NDirs ++ " " ++
         (if t.NDirs = 1 then "directory" else "directories") ++ ", " ++
         toString t.NFiles ++ " " ++ (if t.NFiles = 1 then "file" else "files")) ∧
    (∀ (fsys : FsTree) (name : String) (opts : List Opt) (t : TreeFS),
       Opt.DirOnly ∈ opts → New fsys name opts = .ok t → t.NFiles = 0) := by
  refine ⟨fun t => rfl, ?_, ?_, ?_⟩
  · intro t h
    simp [TreeFS.Meta, h]
  · intro t h
    simp [TreeFS.Meta, h]
  · intro fsys name opts t hmem h
    have hdo := newStart_dirOnly name opts hmem
    obtain ⟨_, _, _, hfc⟩ := New_ok_stepOk h
    rw [hfc hdo, (newStart_counts name opts).2]

/-- Witness for C6 at concrete counts and a concrete `DirOnly` render. -/
theorem c6_summary_witness :
    TreeFS.Meta { dirOnly := true, NDirs := 1 } = "1 directory" ∧
    TreeFS.Meta { NDirs := 2, NFiles := 1 } = "2 directories, 1 file" ∧
    (∃ t, New (FsTree.dir [("d", FsTree.dir []), ("x.test", FsTree.file)]) "r"
        [Opt.DirOnly] = .ok t ∧ t.NFiles = 0) := by
  refine ⟨?_, ?_, ?_⟩
  · rw [c6_summary_format.2.1 { dirOnly := true, NDirs := 1 } rfl]
    decide
  · rw [c6_summary_format.2.2.1 { NDirs := 2, NFiles := 1 } rfl]
    decide
  · have h : New (FsTree.dir [("d", FsTree.dir []), ("x.test", FsTree.file)]) "r"
        [Opt.DirOnly] =
        .ok { tree := ["r", teeConnector ++ " d"], NDirs := 1, dirOnly := true } := by
      simp +decide [New, newStart, walkName, applyOpts, applyOpt, initTreeFS,
        containsDotDotSlash, treeFSWithPrefix, walkEntries, addDir, allow, strHasPrefix,
        entryOf, isDirNode, TreeFS.append, pathJoin, pathClean, splitSegs, cleanSegs, joinSegs,
        elbowConnector, teeConnector, pipePrefix, spacePrefix]
    exact ⟨_, h, c6_summary_format.2.2.2 _ "r" [Opt.DirOnly] _ (by simp) h⟩

/-- C7: for every successful render (in particular when no filtering excludes
anything), each displayed entry contributes exactly one line and one counter increment,
so `NDirs + NFiles` equals the number of lines after the first (root) line. -/
theorem c7_counts_match_lines (fsys : FsTree) (name : String) (opts : List Opt) (t : TreeFS)
    (h : New fsys name opts = .ok t) :
    t.NDirs + t.NFiles + 1 = t.tree.length := by
  obtain ⟨⟨ds, hds⟩, hl, _, _⟩ := New_ok_stepOk h
  rw [newStart_tree name opts] at hds hl
  rw [(newStart_counts name opts).1, (newStart_counts name opts).2] at hl
  have hlen : t.tree.length = ds.length + 1 := by rw [hds]; simp
  simp at hl
  omega

/-- Witness for C7 at a one-file filesystem. -/
theorem c7_counts_witness :
    ∃ t : TreeFS,
      New (FsTree.dir [("f.test", FsTree.file)]) "r" [] = .ok t ∧
      t.NDirs + t.NFiles + 1 = t.tree.length := by
  have h : New (FsTree.dir [("f.test", FsTree.file)]) "r" [] =
      .ok { tree := ["r", elbowConnector ++ " f.test"], NFiles := 1 } := by
    simp +decide [New, newStart, walkName, applyOpts, applyOpt, initTreeFS,
      containsDotDotSlash, treeFSWithPrefix, walkEntries, addDir, allow, strHasPrefix,
      entryOf, isDirNode, TreeFS.append, pathJoin, pathClean, splitSegs, cleanSegs, joinSegs,
      elbowConnector, teeConnector, pipePrefix, spacePrefix]
  exact ⟨_, h, c7_counts_match_lines _ _ _ _ h⟩

/-- C8: with `fullPathPrefix`, an appended line displays the walk path joined with the
entry name by a slash, prepending the recorded `pathPrefix` instead when one was
recorded; a root name containing `../` or equal to `.` makes the walk run at `.` with
the original name recorded as the path-prefix hint; and a successful render carries
exactly the recorded hint. -/
theorem c8_full_path_rendering :
    (∀ (t : TreeFS) (pfx conn dirPath n : String),
       t.fullPathPrefix = true → t.pathPrefix = "" →
       TreeFS.append t pfx conn dirPath n =
         { t with tree := t.tree ++ [pfx ++ conn ++ " " ++ pathJoin dirPath n] }) ∧
    (∀ (t : TreeFS) (pfx conn dirPath n : String),
       t.fullPathPrefix = true → t.pathPrefix ≠ "" →
       TreeFS.append t pfx conn dirPath n =
         { t with tree :=
             t.tree ++ [pfx ++ conn ++ " " ++ t.pathPrefix ++ "/" ++ pathJoin dirPath n] }) ∧
    (∀ name : String, (containsDotDotSlash name = true ∨ name = ".") →
       walkName name = "." ∧ ∀ opts, (newStart name opts).pathPrefix = name) ∧
    (∀ (fsys : FsTree) (name : String) (opts : List Opt) (t : TreeFS),
       New fsys name opts = .ok t → t.pathPrefix = (newStart name opts).pathPrefix) := by
  refine ⟨?_, ?_, ?_, ?_⟩
  · intro t pfx conn dirPath n h1 h2
    simp [TreeFS.append, h1, h2]
  · intro t pfx conn dirPath n h1 h2
    simp [TreeFS.append, h1, h2]
  · intro name h
    constructor
    · unfold walkName
      rw [if_pos h]
    · intro opts
      unfold newStart
      rw [if_pos h]
  · intro fsys name opts t h
    exact (New_ok_stepOk h).2.2.1.1

/-- Witness for C8 at a `.`-rooted full-path render. -/
theorem c8_full_path_witness :
    TreeFS.append { tree := ["r"], fullPathPrefix := true } "" elbowConnector "a/b" "c" =
      { tree := ["r", elbowConnector ++ " " ++ pathJoin "a/b" "c"], fullPathPrefix := true } ∧
    TreeFS.append { tree := ["."], fullPathPrefix := true, pathPrefix := "." } ""
        elbowConnector "." "c" =
      { tree := [".", elbowConnector ++ " " ++ "." ++ "/" ++ pathJoin "." "c"],
        fullPathPrefix := true, pathPrefix := "." } ∧
    (walkName "." = "." ∧ ∀ opts, (newStart "." opts).pathPrefix = ".") ∧
    (∃ t, New (FsTree.dir [("c", FsTree.file)]) "." [Opt.FullPathPrefix] = .ok t ∧
       t.pathPrefix = (newStart "." [Opt.FullPathPrefix]).pathPrefix) := by
  refine ⟨?_, ?_, ?_, ?_⟩
  · simpa using c8_full_path_rendering.1 { tree := ["r"], fullPathPrefix := true } ""
      elbowConnector "a/b" "c" rfl rfl
  · simpa using c8_full_path_rendering.2.1
      { tree := ["."], fullPathPrefix := true, pathPrefix := "." } "" elbowConnector "." "c"
      rfl (by decide)
  · exact c8_full_path_rendering.2.2.1 "." (Or.inr rfl)
  · have h : New (FsTree.dir [("c", FsTree.file)]) "." [Opt.FullPathPrefix] =
        .ok { tree := [".", elbowConnector ++ " ./c"], NFiles := 1,
              fullPathPrefix := true, pathPrefix := "." } := by
      simp +decide [New, newStart, walkName, applyOpts, applyOpt, initTreeFS,
        containsDotDotSlash, treeFSWithPrefix, walkEntries, addDir, allow, strHasPrefix,
        entryOf, isDirNode, TreeFS.append, pathJoin, pathClean, splitSegs, cleanSegs, joinSegs,
        elbowConnector, teeConnector, pipePrefix, spacePrefix]
    exact ⟨_, h, c8_full_path_rendering.2.2.2 _ "." [Opt.FullPathPrefix] _ h⟩
/-- C9: a successful render's lines start with the supplied root name, the counters
cover exactly the lines below it, and when every entry of the root listing is filtered
out the result is the untouched one-line start state with both counts zero. -/
theorem c9_root_line (fsys : FsTree) (name : String) (opts : List Opt) :
    (∀ t, New fsys name opts = .ok t →
       ∃ rest, t.tree = name :: rest ∧ t.NDirs + t.NFiles = rest.length) ∧
    (∀ es, readNode fsys = .ok es →
       (∀ p ∈ es, allow (newStart name opts) (entryOf p) = false) →
       New fsys name opts = .ok (newStart name opts) ∧
       (newStart name opts).tree = [name] ∧
       (newStart name opts).NDirs = 0 ∧ (newStart name opts).NFiles = 0) := by
  constructor
  · intro t h
    obtain ⟨⟨ds, hds⟩, hl, _, _⟩ := New_ok_stepOk h
    rw [newStart_tree name opts] at hds hl
    rw [(newStart_counts name opts).1, (newStart_counts name opts).2] at hl
    refine ⟨ds, by simpa using hds, ?_⟩
    have hlen : t.tree.length = ds.length + 1 := by rw [hds]; simp
    simp at hl
    omega
  · intro es hread hall
    exact ⟨New_all_filtered hread hall, newStart_tree name opts,
           (newStart_counts name opts).1, (newStart_counts name opts).2⟩

/-- Witness for C9: a one-file render and an all-hidden root. -/
theorem c9_root_line_witness :
    (∃ rest, ({ tree := ["r", elbowConnector ++ " f.test"], NFiles := 1 } : TreeFS).tree =
        "r" :: rest ∧
      ({ tree := ["r", elbowConnector ++ " f.test"], NFiles := 1 } : TreeFS).NDirs +
        ({ tree := ["r", elbowConnector ++ " f.test"], NFiles := 1 } : TreeFS).NFiles =
        rest.length) ∧
    (New (FsTree.dir [(".h", FsTree.file)]) "r" [] = .ok (newStart "r" []) ∧
     (newStart "r" []).tree = ["r"] ∧
     (newStart "r" []).NDirs = 0 ∧ (newStart "r" []).NFiles = 0) := by
  constructor
  · refine (c9_root_line (FsTree.dir [("f.test", FsTree.file)]) "r" []).1 _ ?_
    simp +decide [New, newStart, walkName, applyOpts, applyOpt, initTreeFS,
      containsDotDotSlash, treeFSWithPrefix, walkEntries, addDir, allow, strHasPrefix,
      entryOf, isDirNode, TreeFS.append, pathJoin, pathClean, splitSegs, cleanSegs, joinSegs,
      elbowConnector, teeConnector, pipePrefix, spacePrefix]
  · exact (c9_root_line (FsTree.dir [(".h", FsTree.file)]) "r" []).2
      [(".h", FsTree.file)] rfl (by decide)

/-- C10: the aggregator on an empty list succeeds with the zero report: no lines, an
empty graph, zero counts, and the summary `0 directories, 0 files`. -/
theorem c10_empty_aggregate :
    NewMulti [] = .ok ({} : TreeFS) ∧ ({} : TreeFS).tree = [] ∧
    TreeFS.Graph {} = "" ∧ ({} : TreeFS).NDirs = 0 ∧ ({} : TreeFS).NFiles = 0 ∧
    TreeFS.Meta {} = "0 directories, 0 files" := by
  refine ⟨rfl, rfl, by decide, rfl, rfl, by decide⟩

